import Mathlib

/-!
Verification development for `adetailer_plus` (`src/adetailer/prompt_processor.py`).

The module is a pure text transform: it removes user-specified exclusion
words or phrases from an image-generation prompt.  We embed the three
Python functions (`parse_exclusion_words`, `clean_prompt_with_exclusions`,
`process_prompt_with_exclusions`) shallowly over `List Char`, modelling
the relevant fragment of Python string/regex semantics for ASCII text:

* `str.strip()` / the regex class `\s` use Python's whitespace set
  `' ', '\t', '\n', '\x0b', '\x0c', '\r'`;
* the regex `\b` word boundary uses the word-character class
  `[A-Za-z0-9_]`;
* `str.lower()` is ASCII lowercasing (Lean's `Char.toLower`);
* `re.sub(r'([\(\[])(.*?)([\)\]])', f, s)` scans left to right; a match
  starts at an opening bracket and ends at the first following closing
  bracket of either kind, with no newline in between (`.` does not match
  newline); scanning resumes after each match and replacements are not
  rescanned;
* `re.sub(pat, '', s)` removes every non-overlapping leftmost match.

All definitions are structurally recursive (the bracket scanner carries
fuel initialized to the input length, which is provably sufficient), so
concrete runs evaluate in the kernel and closed claims settle by `decide`.
-/

namespace PromptProc

/-- Python whitespace (`str.strip`, regex `\s`) restricted to ASCII. -/
def pyWs (c : Char) : Bool :=
  c = ' ' || c = '\t' || c = '\n' || c = '\x0b' || c = '\x0c' || c = '\r'

/-- Regex word character `\w` restricted to ASCII: alphanumeric or underscore. -/
def wordChar (c : Char) : Bool :=
  c.isAlphanum || c = '_'

/-- ASCII lowercasing of a character list (Python `str.lower`). -/
def lowerL (l : List Char) : List Char :=
  l.map Char.toLower

/-- Drop characters satisfying `p` from both ends of a list. -/
def stripEnds (p : Char → Bool) (l : List Char) : List Char :=
  ((l.dropWhile p).reverse.dropWhile p).reverse

/-- Python `str.strip()` with no argument: strip whitespace from both ends. -/
def stripWs (l : List Char) : List Char :=
  stripEnds pyWs l

/-- Python `str.strip(',')`: strip commas from both ends. -/
def stripCommas (l : List Char) : List Char :=
  stripEnds (fun c => c = ',') l

/-- Python `str.split(',')`: split at every comma; `[]` yields `[[]]`. -/
def splitComma : List Char → List (List Char)
  | [] => [[]]
  | c :: cs =>
    if c = ',' then [] :: splitComma cs
    else
      match splitComma cs with
      | [] => [[c]]
      | h :: t => (c :: h) :: t

/-- Scanner for `re.sub(r'\s+', ' ', s)`: `prevWs` records whether the
previous character was whitespace, so each maximal whitespace run emits
exactly one space. -/
def collapseWsAux (prevWs : Bool) : List Char → List Char
  | [] => []
  | c :: cs =>
    if pyWs c then
      if prevWs then collapseWsAux true cs
      else ' ' :: collapseWsAux true cs
    else c :: collapseWsAux false cs

/-- `re.sub(r'\s+', ' ', s)`: each maximal whitespace run becomes one space. -/
def collapseWs (l : List Char) : List Char :=
  collapseWsAux false l

/-- Scanner for `re.sub(r'\s*,\s*', ', ', s)`.  `pend` holds (reversed)
whitespace not yet known to precede a comma; `dropping` is set right
after an emitted `', '`, while the match's trailing `\s*` consumes
whitespace. -/
def normCommasAux (dropping : Bool) (pend : List Char) : List Char → List Char
  | [] => if dropping then [] else pend.reverse
  | c :: cs =>
    if pyWs c then
      if dropping then normCommasAux true [] cs
      else normCommasAux false (c :: pend) cs
    else if c = ',' then ',' :: ' ' :: normCommasAux true [] cs
    else (if dropping then [] else pend.reverse) ++ c :: normCommasAux false [] cs

/-- `re.sub(r'\s*,\s*', ', ', s)`: each comma together with surrounding
whitespace becomes a comma followed by one space. -/
def normCommas (l : List Char) : List Char :=
  normCommasAux false [] l

/-- Scanner for Python `str.splitlines()` over the line boundaries
`'\n'`, `'\r'`, `'\r\n'`: `acc` is the current line, reversed.  A final
line terminator produces no trailing empty line. -/
def splitLinesAux (acc : List Char) : List Char → List (List Char)
  | [] => if acc = [] then [] else [acc.reverse]
  | '\r' :: '\n' :: t => acc.reverse :: splitLinesAux [] t
  | '\r' :: t => acc.reverse :: splitLinesAux [] t
  | '\n' :: t => acc.reverse :: splitLinesAux [] t
  | c :: cs => splitLinesAux (c :: acc) cs

/-- Python `str.splitlines()`: the empty string yields no lines. -/
def splitLines (l : List Char) : List (List Char) :=
  splitLinesAux [] l

/-- Keep the first occurrence of each element; `seen` collects elements
already emitted (Python `set` collapses duplicates; the order in which
the set is later iterated is modelled explicitly, see the
order-dependence analysis). -/
def dedupAux (seen : List (List Char)) : List (List Char) → List (List Char)
  | [] => []
  | x :: xs =>
    if x ∈ seen then dedupAux seen xs
    else x :: dedupAux (x :: seen) xs

/-- Duplicate removal keeping first occurrences. -/
def dedupFirst (l : List (List Char)) : List (List Char) :=
  dedupAux [] l

/-- `parse_exclusion_words` from the source: empty text gives the empty
set; otherwise split into lines, strip and lowercase each line, drop
empty lines, and collect the survivors into a set (modelled as a
duplicate-free list in first-occurrence order). -/
def parse_exclusion_words (e : List Char) : List (List Char) :=
  if e = [] then []
  else dedupFirst (((splitLines e).map (fun l => lowerL (stripWs l))).filter (fun w => w ≠ []))

/-- Split a list at the first closing bracket `')'` or `']'`, returning
the part before it, the closing character, and the part after.  Fails
(like the lazy regex `(.*?)([\)\]])`) if a newline is reached first or
no closing bracket exists. -/
def splitAtClose : List Char → Option (List Char × Char × List Char)
  | [] => none
  | c :: cs =>
    if c = ')' || c = ']' then some ([], c, cs)
    else if c = '\n' then none
    else
      match splitAtClose cs with
      | some (a, b, r) => some (c :: a, b, r)
      | none => none

/-- Whether the first character of a list is a word character (`false`
for the empty list): the `\b` test on the right edge of a position. -/
def headWordB (l : List Char) : Bool :=
  match l with
  | [] => false
  | c :: _ => wordChar c

/-- Whether the last character of a list is a word character (`false`
for the empty list): the `\b` test on the left edge of a position. -/
def lastWordB (l : List Char) : Bool :=
  match l.getLast? with
  | none => false
  | some c => wordChar c

/-- `\b P \b` boundary test for a candidate match: `prevW` is whether the
character before the match position is a word character, `P` the pattern,
`rest` the text after the matched span.  For the empty pattern the two
`\b` coincide on one position. -/
def boundB (prevW : Bool) (P rest : List Char) : Bool :=
  match P with
  | [] => prevW != headWordB rest
  | _ => (prevW != headWordB P) && (lastWordB P != headWordB rest)

/-- `re.search(r'\b' + re.escape(P) + r'\b', s)` for a literal pattern
`P`, scanning with the word-character status of the previous character. -/
def bSearchFrom (P : List Char) (prevW : Bool) : List Char → Bool
  | [] => P.isPrefixOf [] && boundB prevW P ([].drop P.length)
  | c :: cs =>
    (P.isPrefixOf (c :: cs) && boundB prevW P ((c :: cs).drop P.length)) ||
      bSearchFrom P (wordChar c) cs

/-- `re.search(r'\b…\b', s)` from the start of the string. -/
def bSearch (P s : List Char) : Bool :=
  bSearchFrom P false s

/-- Scanner for `re.sub(r'\b' + re.escape(P) + r'\b', '', s,
flags=re.IGNORECASE)` with a lowercase literal pattern `P`: delete every
non-overlapping leftmost case-insensitive whole-word match.  `skip`
counts characters of a recognized match still to delete; `prevW` is the
word-character status of the previous character.  An empty pattern
deletes nothing. -/
def bSubAux (P : List Char) (skip : Nat) (prevW : Bool) : List Char → List Char
  | [] => []
  | c :: cs =>
    match skip with
    | k + 1 => bSubAux P k (wordChar c) cs
    | 0 =>
      if P = [] then c :: cs
      else if lowerL ((c :: cs).take P.length) = P ∧
          boundB prevW P ((c :: cs).drop P.length) = true then
        bSubAux P (P.length - 1) (wordChar c) cs
      else c :: bSubAux P 0 (wordChar c) cs

/-- One full whole-word substitution pass. -/
def bSub (P s : List Char) : List Char :=
  bSubAux P 0 false s

/-- The inner member loop of `clean_prompt_with_exclusions` for one
segment.  `stale` is `segment.lower()` computed once before the loop and
never updated (the source mutates `segment` but not `segment_lower`);
`seg` is the current (mutated) segment.  `none` means the segment is
dropped (`segment_should_be_kept = False`). -/
def segLoop (stale seg : List Char) : List (List Char) → Option (List Char)
  | [] => some seg
  | m :: ms =>
    if stale = lowerL m then none
    else if bSearch (lowerL m) stale then
      if stripWs (bSub (lowerL m) seg) = [] then none
      else segLoop stale (stripWs (bSub (lowerL m) seg)) ms
    else segLoop stale seg ms

/-- The segment phase of `clean_prompt_with_exclusions`: split the
bracket-substituted text on commas, strip each piece, skip empty pieces,
run the member loop, and keep only segments that survive with non-empty
stripped text. -/
def keptSegments (S : List (List Char)) (r1 : List Char) : List (List Char) :=
  ((splitComma r1).map stripWs).filterMap (fun seg =>
    if seg = [] then none
    else
      match segLoop (lowerL seg) seg S with
      | none => none
      | some s => if stripWs s = [] then none else some (stripWs s))

/-- Rejoin the kept segments with `', '` and run the final cleanup of
`clean_prompt_with_exclusions`: collapse whitespace runs, normalize
spacing around commas, then `strip().strip(',').strip()`. -/
def segPhase (S : List (List Char)) (r1 : List Char) : List Char :=
  stripWs (stripCommas (stripWs (normCommas (collapseWs
    (List.intercalate [',', ' '] (keptSegments S r1))))))

/-- `re.sub(r'([\(\[])(.*?)([\)\]])', clean_bracketed_content, result)`:
scan for an opening bracket; pair it with the first following closing
bracket of either kind (newline blocks the match).  The captured content
is cleaned recursively with the same exclusion set (the conditional is
the inlined body of `clean_prompt_with_exclusions`); an empty cleaned
content drops the whole group, otherwise the content is re-wrapped using
the closing bracket derived from the opening one.  `fuel` bounds the
recursion; every call from `bracketSub` keeps `fuel` at least the input
length, which is sufficient because the captured content and the rest of
the scan are both strictly shorter than the current input. -/
def bracketSubF (S : List (List Char)) : Nat → List Char → List Char
  | _, [] => []
  | 0, l => l
  | fuel + 1, c :: cs =>
    if c = '(' || c = '[' then
      match splitAtClose cs with
      | some (content, _cl, rest) =>
        let cleaned :=
          if content = [] ∨ S = [] then content
          else segPhase S (bracketSubF S fuel content)
        (if stripWs cleaned = [] then []
         else c :: (cleaned ++ [if c = '(' then ')' else ']'])) ++ bracketSubF S fuel rest
      | none => c :: bracketSubF S fuel cs
    else c :: bracketSubF S fuel cs

/-- The bracket-group substitution pass, with sufficient fuel. -/
def bracketSub (S : List (List Char)) (l : List Char) : List Char :=
  bracketSubF S l.length l

/-- `clean_prompt_with_exclusions` from the source: return the prompt
unchanged when it or the exclusion set is empty, otherwise substitute
bracket groups and run the segment phase. -/
def clean_prompt_with_exclusions (p : List Char) (S : List (List Char)) : List Char :=
  if p = [] ∨ S = [] then p
  else segPhase S (bracketSub S p)

/-- `process_prompt_with_exclusions` on character lists: empty exclusion
text is a fast path returning the prompt; otherwise parse the exclusion
set and clean. -/
def processL (p e : List Char) : List Char :=
  if e = [] then p
  else clean_prompt_with_exclusions p (parse_exclusion_words e)

/-- `process_prompt_with_exclusions` from the source, on strings. -/
def process_prompt_with_exclusions (p e : String) : String :=
  ⟨processL p.data e.data⟩

/-- Rebuilding a string from its character data is the identity. -/
theorem mk_data (s : String) : (⟨s.data⟩ : String) = s := rfl

/-- C1: the three fast paths of `process_prompt_with_exclusions` return
the prompt unchanged, byte for byte: empty exclusion text; exclusion
text whose parsed exclusion set is empty (e.g. whitespace-only lines);
and an empty prompt. -/
theorem c1_fast_paths :
    (∀ p : String, process_prompt_with_exclusions p "" = p) ∧
    (∀ p e : String, parse_exclusion_words e.data = [] →
      process_prompt_with_exclusions p e = p) ∧
    (∀ e : String, process_prompt_with_exclusions "" e = "") := by
  refine ⟨?_, ?_, ?_⟩
  · intro p
    exact mk_data p
  · intro p e h
    show (⟨processL p.data e.data⟩ : String) = p
    unfold processL
    by_cases he : e.data = []
    · rw [if_pos he]
    · rw [if_neg he, h]
      unfold clean_prompt_with_exclusions
      rw [if_pos (Or.inr rfl)]
  · intro e
    show (⟨processL [] e.data⟩ : String) = ""
    unfold processL
    by_cases he : e.data = []
    · rw [if_pos he]
    · rw [if_neg he]
      unfold clean_prompt_with_exclusions
      rw [if_pos (Or.inl rfl)]

/-- Witness for C1: a whitespace-only exclusion text parses to the empty
set and leaves a concrete prompt untouched. -/
theorem c1_witness :
    process_prompt_with_exclusions "red,  dog ,," "  \n \t " = "red,  dog ,," :=
  c1_fast_paths.2.1 "red,  dog ,," "  \n \t " (by decide)

/-- C2 is false of the code: one application of
`process_prompt_with_exclusions` can leave text that a second
application removes.  Removing `"blue cat"` from
`"blue blue cat cat"` deletes the middle span and whitespace
normalization fuses the remainder into a fresh `"blue cat"`, which the
second pass drops as an exact segment match. -/
theorem c2_not_idempotent :
    process_prompt_with_exclusions "blue blue cat cat" "blue cat" = "blue cat" ∧
    process_prompt_with_exclusions
        (process_prompt_with_exclusions "blue blue cat cat" "blue cat") "blue cat" ≠
      process_prompt_with_exclusions "blue blue cat cat" "blue cat" := by
  constructor
  · decide
  · decide

/-- A successful `splitAtClose` decomposes its input. -/
theorem splitAtClose_append :
    ∀ cs a b r, splitAtClose cs = some (a, b, r) → cs = a ++ b :: r := by
  intro cs
  induction cs with
  | nil => intro a b r h; simp [splitAtClose] at h
  | cons c cs ih =>
    intro a b r h
    unfold splitAtClose at h
    split at h
    · simp only [Option.some.injEq, Prod.mk.injEq] at h
      obtain ⟨h1, h2, h3⟩ := h
      subst h1; subst h2; subst h3
      rfl
    · split at h
      · exact absurd h (by simp)
      · split at h
        · next a' b' r' heq =>
            simp only [Option.some.injEq, Prod.mk.injEq] at h
            obtain ⟨h1, h2, h3⟩ := h
            subst h1; subst h2; subst h3
            rw [ih a' b' r' heq]
            rfl
        · exact absurd h (by simp)

/-- A list with no closing bracket makes `splitAtClose` fail. -/
theorem splitAtClose_none_of_noClose :
    ∀ l : List Char, (∀ c ∈ l, c ≠ ')' ∧ c ≠ ']') → splitAtClose l = none := by
  intro l
  induction l with
  | nil => intro _; rfl
  | cons c cs ih =>
    intro h
    have hc := h c (List.mem_cons_self c cs)
    unfold splitAtClose
    rw [if_neg (by simp [hc.1, hc.2])]
    by_cases hn : c = '\n'
    · rw [if_pos hn]
    · rw [if_neg hn]
      rw [ih (fun x hx => h x (List.mem_cons_of_mem c hx))]

/-- On a bracket-free, newline-free span followed by a closing bracket,
`splitAtClose` captures exactly that span. -/
theorem splitAtClose_of_safe :
    ∀ a : List Char, (∀ c ∈ a, c ≠ ')' ∧ c ≠ ']' ∧ c ≠ '\n') →
      ∀ (cl : Char) (r : List Char), cl = ')' ∨ cl = ']' →
        splitAtClose (a ++ cl :: r) = some (a, cl, r) := by
  intro a
  induction a with
  | nil =>
    intro _ cl r hcl
    rcases hcl with h | h <;> subst h <;> rfl
  | cons c a' ih =>
    intro h cl r hcl
    have hc := h c (List.mem_cons_self c a')
    have hrec := ih (fun x hx => h x (List.mem_cons_of_mem c hx)) cl r hcl
    show splitAtClose (c :: (a' ++ cl :: r)) = _
    simp only [splitAtClose]
    rw [if_neg (by simp [hc.1, hc.2.1]), if_neg hc.2.2, hrec]

/-- `bracketSubF` does not depend on the fuel, once the fuel covers the
input length. -/
theorem bracketSubF_fuel (S : List (List Char)) :
    ∀ f₁ : Nat, ∀ l : List Char, ∀ f₂ : Nat, l.length ≤ f₁ → l.length ≤ f₂ →
      bracketSubF S f₁ l = bracketSubF S f₂ l := by
  intro f₁
  induction f₁ with
  | zero =>
    intro l f₂ h1 _
    have hl : l = [] := List.eq_nil_of_length_eq_zero (Nat.le_zero.mp h1)
    subst hl
    cases f₂ <;> rfl
  | succ f ih =>
    intro l f₂ h1 h2
    cases l with
    | nil => cases f₂ <;> rfl
    | cons c cs =>
      cases f₂ with
      | zero => simp at h2
      | succ g =>
        simp only [List.length_cons, Nat.succ_le_succ_iff] at h1 h2
        show bracketSubF S (f + 1) (c :: cs) = bracketSubF S (g + 1) (c :: cs)
        simp only [bracketSubF]
        by_cases hop : (c = '(' || c = '[') = true
        · rw [if_pos hop, if_pos hop]
          cases hsc : splitAtClose cs with
          | none =>
            simp only [hsc]
            rw [ih cs g h1 h2]
          | some v =>
            obtain ⟨content, cl, rest⟩ := v
            have hdec := splitAtClose_append cs content cl rest hsc
            subst hdec
            simp only [hsc]
            simp only [List.length_append, List.length_cons] at h1 h2
            rw [ih content g (by omega) (by omega)]
            rw [ih rest g (by omega) (by omega)]
        · rw [if_neg hop, if_neg hop]
          rw [ih cs g h1 h2]

/-- An opening bracket paired by `splitAtClose` with a closing bracket of
either kind, around safe content, is treated as one group: the content
is cleaned recursively by the full pipeline with the same exclusion set;
the group is dropped entirely when the cleaned content strips to empty,
and otherwise re-wrapped with the closing bracket derived from the
opening one. -/
theorem bracketSub_group (S : List (List Char)) (op cl : Char) (content : List Char)
    (hop : op = '(' ∨ op = '[') (hcl : cl = ')' ∨ cl = ']')
    (hsafe : ∀ c ∈ content, c ≠ ')' ∧ c ≠ ']' ∧ c ≠ '\n') :
    bracketSub S (op :: content ++ [cl]) =
      (if stripWs (clean_prompt_with_exclusions content S) = [] then []
       else op :: (clean_prompt_with_exclusions content S ++
         [if op = '(' then ')' else ']'])) := by
  unfold bracketSub
  have hlen : (op :: content ++ [cl]).length = content.length + 1 + 1 := by
    simp
  rw [hlen]
  show bracketSubF S (content.length + 1 + 1) (op :: (content ++ [cl])) = _
  unfold bracketSubF
  rw [if_pos (by rcases hop with h | h <;> simp [h])]
  rw [splitAtClose_of_safe content hsafe cl [] hcl]
  show (let cleaned :=
      if content = [] ∨ S = [] then content
      else segPhase S (bracketSubF S (content.length + 1) content)
    (if stripWs cleaned = [] then []
     else op :: (cleaned ++ [if op = '(' then ')' else ']'])) ++
      bracketSubF S (content.length + 1) []) = _
  rw [show bracketSubF S (content.length + 1) ([] : List Char) = [] from rfl]
  rw [bracketSubF_fuel S (content.length + 1) content content.length
    (by omega) (by omega)]
  rw [List.append_nil]
  rfl

/-- The whole bracket pass is the identity on text with no closing
bracket: an unpaired opening bracket is left as ordinary content. -/
theorem bracketSub_id (S : List (List Char)) :
    ∀ l : List Char, (∀ c ∈ l, c ≠ ')' ∧ c ≠ ']') → bracketSub S l = l := by
  have main : ∀ f : Nat, ∀ l : List Char, (∀ c ∈ l, c ≠ ')' ∧ c ≠ ']') →
      bracketSubF S f l = l := by
    intro f
    induction f with
    | zero => intro l _; cases l <;> rfl
    | succ f ih =>
      intro l h
      cases l with
      | nil => rfl
      | cons c cs =>
        have hcs : ∀ x ∈ cs, x ≠ ')' ∧ x ≠ ']' :=
          fun x hx => h x (List.mem_cons_of_mem c hx)
        show bracketSubF S (f + 1) (c :: cs) = c :: cs
        unfold bracketSubF
        by_cases hop : (c = '(' || c = '[') = true
        · rw [if_pos hop, splitAtClose_none_of_noClose cs hcs]
          rw [ih cs hcs]
        · rw [if_neg hop]
          rw [ih cs hcs]
  intro l h
  exact main l.length l h

/-- C5: a bracketed group is filtered by running the pipeline recursively
on its inner text with the same exclusion set; a group whose cleaned
inner text is empty is dropped together with its delimiters, otherwise
the cleaned inner text is re-wrapped in its brackets.  The two
spec-level examples hold end to end. -/
theorem c5_bracket_groups :
    (∀ (content : List Char) (S : List (List Char)),
      (∀ c ∈ content, c ≠ ')' ∧ c ≠ ']' ∧ c ≠ '\n') →
      bracketSub S ('(' :: content ++ [')']) =
        (if stripWs (clean_prompt_with_exclusions content S) = [] then []
         else '(' :: (clean_prompt_with_exclusions content S ++ [')']))) ∧
    process_prompt_with_exclusions "(blue cat), red dog" "blue cat" = "red dog" ∧
    process_prompt_with_exclusions "(blue cat, green bird)" "blue cat" = "(green bird)" := by
  refine ⟨?_, by decide, by decide⟩
  intro content S hsafe
  have h := bracketSub_group S '(' ')' content (Or.inl rfl) (Or.inl rfl) hsafe
  simpa using h

/-- Witness for C5: the group mechanism evaluated at the concrete inner
text `"blue cat"` with exclusion set `{"blue cat"}` — the cleaned inner
text is empty, so the whole group is dropped. -/
theorem c5_witness :
    bracketSub ["blue cat".data] ('(' :: "blue cat".data ++ [')']) =
      (if stripWs (clean_prompt_with_exclusions "blue cat".data ["blue cat".data]) = []
       then []
       else '(' :: (clean_prompt_with_exclusions "blue cat".data ["blue cat".data] ++ [')'])) :=
  c5_bracket_groups.1 "blue cat".data ["blue cat".data] (by decide)

/-- C9: the pipeline is total by construction (every embedded function is
a total Lean function), and an opening bracket with no matching closing
delimiter is left as ordinary content: the bracket pass is the identity
on any text without a closing bracket, and a concrete unbalanced prompt
passes through the whole pipeline unchanged. -/
theorem c9_unbalanced_total :
    (∀ (S : List (List Char)) (l : List Char),
      (∀ c ∈ l, c ≠ ')' ∧ c ≠ ']') → bracketSub S l = l) ∧
    process_prompt_with_exclusions "(abc" "dog" = "(abc" := by
  refine ⟨?_, by decide⟩
  intro S l h
  exact bracketSub_id S l h

/-- Witness for C9: the bracket pass leaves a concrete prompt with an
unpaired opening bracket untouched. -/
theorem c9_witness :
    bracketSub ["dog".data] "(abc dog".data = "(abc dog".data :=
  c9_unbalanced_total.1 ["dog".data] "(abc dog".data (by decide)

/-- C10: group detection pairs an opening bracket with the first
following closing bracket of either type: an opening parenthesis closed
by a square bracket is still treated as one group (re-wrapped, when
kept, with the closing bracket derived from the opening one), and the
concrete mismatched prompt `"(blue cat]"` is filtered and dropped whole. -/
theorem c10_mismatched_close :
    (∀ (content : List Char) (cl : Char) (S : List (List Char)),
      (cl = ')' ∨ cl = ']') →
      (∀ c ∈ content, c ≠ ')' ∧ c ≠ ']' ∧ c ≠ '\n') →
      bracketSub S ('(' :: content ++ [cl]) =
        (if stripWs (clean_prompt_with_exclusions content S) = [] then []
         else '(' :: (clean_prompt_with_exclusions content S ++ [')']))) ∧
    process_prompt_with_exclusions "(blue cat]" "blue cat" = "" := by
  refine ⟨?_, by decide⟩
  intro content cl S hcl hsafe
  have h := bracketSub_group S '(' cl content (Or.inl rfl) hcl hsafe
  simpa using h

/-- Witness for C10: the mismatched pair `'('` … `']'` around
`"blue cat"` evaluated concretely. -/
theorem c10_witness :
    bracketSub ["blue cat".data] ('(' :: "blue cat".data ++ [']']) =
      (if stripWs (clean_prompt_with_exclusions "blue cat".data ["blue cat".data]) = []
       then []
       else '(' :: (clean_prompt_with_exclusions "blue cat".data ["blue cat".data] ++ [')'])) :=
  c10_mismatched_close.1 "blue cat".data ']' ["blue cat".data] (Or.inr rfl) (by decide)

/-- `dropWhile` never lengthens a list. -/
theorem dropWhile_len_le (p : Char → Bool) (l : List Char) :
    (l.dropWhile p).length ≤ l.length :=
  List.Sublist.length_le (List.dropWhile_sublist p)

/-- `stripEnds` is a `dropWhile` followed by Mathlib's `rdropWhile`. -/
theorem stripEnds_eq (p : Char → Bool) (l : List Char) :
    stripEnds p l = List.rdropWhile p (l.dropWhile p) := rfl

/-- The first character surviving `stripEnds` fails the predicate. -/
theorem stripEnds_head_not (p : Char → Bool) (l : List Char) (c : Char)
    (h : (stripEnds p l).head? = some c) : p c = false := by
  rw [stripEnds_eq] at h
  cases hv : List.rdropWhile p (l.dropWhile p) with
  | nil => rw [hv] at h; simp at h
  | cons d t =>
    rw [hv] at h
    rw [List.head?_cons] at h
    cases h
    have hpref := List.rdropWhile_prefix p (l.dropWhile p)
    rw [hv] at hpref
    obtain ⟨s, hs⟩ := hpref
    have hu : (l.dropWhile p).dropWhile p = l.dropWhile p := List.dropWhile_idempotent p l
    rw [← hs] at hu
    by_contra hpc
    have hpc' : p c = true := by
      cases hb : p c
      · exact absurd hb hpc
      · rfl
    rw [show (c :: t) ++ s = c :: (t ++ s) from rfl] at hu
    rw [List.dropWhile_cons_of_pos hpc'] at hu
    have hlen := congrArg List.length hu
    have hle := dropWhile_len_le p (t ++ s)
    simp only [List.length_cons] at hlen
    omega

/-- The last character surviving `stripEnds` fails the predicate. -/
theorem stripEnds_last_not (p : Char → Bool) (l : List Char) (c : Char)
    (h : (stripEnds p l).getLast? = some c) : p c = false := by
  rw [stripEnds_eq] at h
  have hne : List.rdropWhile p (l.dropWhile p) ≠ [] := by
    intro h0; rw [h0] at h; simp at h
  have h2 := List.rdropWhile_last_not _ _ hne
  rw [List.getLast?_eq_getLast _ hne] at h
  cases h
  cases hb : p ((List.rdropWhile p (l.dropWhile p)).getLast hne)
  · rfl
  · exact absurd hb h2

/-- `stripEnds` fixes a list whose first and last characters fail the
predicate. -/
theorem stripEnds_noop (p : Char → Bool) (l : List Char)
    (h1 : ∀ c, l.head? = some c → p c = false)
    (h2 : ∀ c, l.getLast? = some c → p c = false) :
    stripEnds p l = l := by
  rw [stripEnds_eq]
  have hd : l.dropWhile p = l := by
    cases l with
    | nil => rfl
    | cons c t =>
      apply List.dropWhile_cons_of_neg
      simp [h1 c rfl]
  rw [hd]
  rw [List.rdropWhile_eq_self_iff]
  intro hl
  have := h2 (l.getLast hl) (List.getLast?_eq_getLast l hl)
  simp [this]

/-- `stripEnds` is idempotent. -/
theorem stripEnds_idem (p : Char → Bool) (l : List Char) :
    stripEnds p (stripEnds p l) = stripEnds p l :=
  stripEnds_noop p (stripEnds p l)
    (fun c hc => stripEnds_head_not p l c hc)
    (fun c hc => stripEnds_last_not p l c hc)

/-- If some member of the exclusion list lowercases to the stale
segment text, the member loop drops the segment, whatever mutations the
earlier members performed. -/
theorem segLoop_drop_of_mem :
    ∀ (S : List (List Char)) (stale seg : List Char),
      (∃ m ∈ S, lowerL m = stale) → segLoop stale seg S = none := by
  intro S
  induction S with
  | nil =>
    intro stale seg h
    obtain ⟨m, hm, _⟩ := h
    exact absurd hm (List.not_mem_nil m)
  | cons x xs ih =>
    intro stale seg h
    obtain ⟨m, hm, hml⟩ := h
    show segLoop stale seg (x :: xs) = none
    simp only [segLoop]
    by_cases hx : stale = lowerL x
    · rw [if_pos hx]
    · rw [if_neg hx]
      have hmem : m ∈ xs := by
        rcases List.mem_cons.mp hm with h1 | h1
        · subst h1; exact absurd hml.symm hx
        · exact h1
      by_cases hs : bSearch (lowerL x) stale = true
      · rw [if_pos hs]
        by_cases h2 : stripWs (bSub (lowerL x) seg) = []
        · rw [if_pos h2]
        · rw [if_neg h2]
          exact ih stale _ ⟨m, hmem, hml⟩
      · rw [if_neg hs]
        exact ih stale _ ⟨m, hmem, hml⟩

/-- C7: a comma-delimited segment whose trimmed, lowercased text equals
an exclusion-set member (members are themselves lowercased, so the
comparison is case-insensitive) is dropped in its entirety, together
with the two spec-level examples run end to end. -/
theorem c7_exact_segment_drop :
    (∀ (S : List (List Char)) (seg : List Char),
      (∃ m ∈ S, lowerL m = lowerL seg) → segLoop (lowerL seg) seg S = none) ∧
    process_prompt_with_exclusions "red dog, blue cat, green bird" "blue cat" =
      "red dog, green bird" ∧
    process_prompt_with_exclusions "Red Dog" "red dog" = "" := by
  refine ⟨?_, by decide, by decide⟩
  intro S seg h
  exact segLoop_drop_of_mem S (lowerL seg) seg h

/-- Witness for C7: the loop drops the concrete segment `"Blue Cat"`
against the one-member set `{"blue cat"}`. -/
theorem c7_witness :
    segLoop (lowerL "Blue Cat".data) "Blue Cat".data ["blue cat".data] = none :=
  c7_exact_segment_drop.1 ["blue cat".data] "Blue Cat".data (by decide)

/-- Kept segments are exactly the survivors of the member loop, stripped
and non-empty: no empty comma slot is ever emitted. -/
theorem keptSegments_shape (S : List (List Char)) (r1 : List Char) (k : List Char)
    (hk : k ∈ keptSegments S r1) : k ≠ [] ∧ stripWs k = k := by
  unfold keptSegments at hk
  rw [List.mem_filterMap] at hk
  obtain ⟨seg, _, hseg⟩ := hk
  by_cases h0 : seg = []
  · rw [if_pos h0] at hseg
    exact absurd hseg (by simp)
  · rw [if_neg h0] at hseg
    cases hsl : segLoop (lowerL seg) seg S with
    | none =>
      simp only [hsl] at hseg
      exact absurd hseg (by simp)
    | some s =>
      simp only [hsl] at hseg
      by_cases h2 : stripWs s = []
      · rw [if_pos h2] at hseg
        exact absurd hseg (by simp)
      · rw [if_neg h2] at hseg
        simp only [Option.some.injEq] at hseg
        subst hseg
        exact ⟨h2, stripEnds_idem pyWs s⟩

/-- C8 is false of the code as stated: there is no word-unit drop that
takes adjacent punctuation with it.  The boundary substitution removes
only the matched span `"dog"` and leaves the period, so the kept segment
is `"."` rather than the segment being dropped. -/
theorem c8_counterexample :
    process_prompt_with_exclusions "dog." "dog" = "." ∧
    process_prompt_with_exclusions "dog." "dog" ≠ "" := by
  constructor
  · decide
  · decide

/-- C8 amended: a whole-word match removes only the matched span,
leaving adjacent punctuation in place (`process("dog.", "dog") = "."`);
and the second half of the claim does hold: a segment left empty or
all-whitespace by removal is dropped rather than emitted as an empty
comma slot — every kept segment is non-empty even after stripping. -/
theorem c8_word_drop_amended :
    (∀ (S : List (List Char)) (r1 : List Char) (k : List Char),
      k ∈ keptSegments S r1 → k ≠ [] ∧ stripWs k = k) ∧
    process_prompt_with_exclusions "dog." "dog" = "." ∧
    process_prompt_with_exclusions "a, dog, b" "dog" = "a, b" := by
  refine ⟨?_, by decide, by decide⟩
  intro S r1 k hk
  exact keptSegments_shape S r1 k hk

/-- Witness for C8 (amended): the concrete kept segment `"a"` of
`"a, dog, b"` under exclusion set `{"dog"}` is non-empty and stripped. -/
theorem c8_witness :
    "a".data ≠ [] ∧ stripWs "a".data = "a".data :=
  c8_word_drop_amended.1 ["dog".data] "a, dog, b".data "a".data (by decide)

/-- C3 is false of the code as stated over all exclusion texts: the
empty-exclusion fast path returns the prompt verbatim, so a prompt that
itself violates the punctuation invariants passes through, e.g. `",,"`
keeps its leading comma. -/
theorem c3_counterexample :
    process_prompt_with_exclusions ",," "" = ",," ∧
    (process_prompt_with_exclusions ",," "").data.head? = some ',' := by
  constructor
  · decide
  · decide

/-- C6 is false of the code as stated: a match is deleted, not replaced
by a single space.  With exclusion `"-"` (word boundaries hold between
`a` and `-` and between `-` and `b`), the code merges the neighbours
into `"ab"`, where replacement by a single space would give `"a b"`. -/
theorem c6_counterexample :
    process_prompt_with_exclusions "a-b" "-" = "ab" ∧
    process_prompt_with_exclusions "a-b" "-" ≠ "a b" := by
  constructor
  · decide
  · decide

/-- No two consecutive whitespace characters occur. -/
def noDoubleWs : List Char → Bool
  | [] => true
  | [_] => true
  | a :: b :: t => !(pyWs a && pyWs b) && noDoubleWs (b :: t)

/-- After every comma, skipping whitespace, the next character (when one
exists) is not another comma. -/
def noCommaComma : List Char → Bool
  | [] => true
  | c :: rest =>
    if c = ',' then
      (if (rest.dropWhile pyWs).head? = some ',' then false else true) &&
        noCommaComma rest
    else noCommaComma rest

/-- C4 is false of the code: the member-removal loop matches against the
stale lowercased segment captured before the loop while mutating the
live segment, so two iteration orders of the same two-member exclusion
set `{"blue cat", "cat"}` yield different outputs on
`"big blue cat here"`. -/
theorem c4_order_dependent :
    clean_prompt_with_exclusions "big blue cat here".data
        ["blue cat".data, "cat".data] = "big here".data ∧
    clean_prompt_with_exclusions "big blue cat here".data
        ["cat".data, "blue cat".data] = "big blue here".data := by
  constructor
  · decide
  · decide

/-- `List.intercalate` on a single list. -/
theorem intercalate_singleton (sep x : List Char) :
    List.intercalate sep [x] = x := by
  simp [List.intercalate, List.intersperse]

/-- `List.intercalate` peeling the first of at least two lists. -/
theorem intercalate_cons2 (sep x y : List Char) (t : List (List Char)) :
    List.intercalate sep (x :: y :: t) = x ++ sep ++ List.intercalate sep (y :: t) := by
  simp [List.intercalate, List.intersperse]

/-- A non-empty input keeps `collapseWs` non-empty. -/
theorem collapseWs_ne_nil (c : Char) (cs : List Char) :
    collapseWs (c :: cs) ≠ [] := by
  simp only [collapseWs, collapseWsAux]
  by_cases h : pyWs c = true
  · rw [if_pos h]
    simp
  · rw [if_neg h]
    simp

/-- An empty `collapseWsAux` output means every input character was
whitespace. -/
theorem collapseWsAux_eq_nil : ∀ (s : List Char) (b : Bool),
    collapseWsAux b s = [] → ∀ c ∈ s, pyWs c = true := by
  intro s
  induction s with
  | nil => intro b _ c hc; simp at hc
  | cons d t ih =>
    intro b h c hc
    simp only [collapseWsAux] at h
    by_cases hd : pyWs d = true
    · rw [if_pos hd] at h
      cases b with
      | false => simp at h
      | true =>
        rcases List.mem_cons.mp hc with h1 | h1
        · subst h1; exact hd
        · exact ih true h c h1
    · rw [if_neg hd] at h
      simp at h

/-- Characters of `collapseWsAux` output come from the input or are the
single space. -/
theorem collapseWsAux_mem : ∀ (s : List Char) (b : Bool) (c : Char),
    c ∈ collapseWsAux b s → c ∈ s ∨ c = ' ' := by
  intro s
  induction s with
  | nil => intro b c h; simp [collapseWsAux] at h
  | cons d t ih =>
    intro b c h
    simp only [collapseWsAux] at h
    by_cases hd : pyWs d = true
    · rw [if_pos hd] at h
      cases b with
      | true =>
        rcases ih true c h with h1 | h1
        · exact Or.inl (List.mem_cons_of_mem d h1)
        · exact Or.inr h1
      | false =>
        rcases List.mem_cons.mp h with h1 | h1
        · exact Or.inr h1
        · rcases ih true c h1 with h2 | h2
          · exact Or.inl (List.mem_cons_of_mem d h2)
          · exact Or.inr h2
    · rw [if_neg hd] at h
      rcases List.mem_cons.mp h with h1 | h1
      · subst h1; exact Or.inl (List.mem_cons_self c t)
      · rcases ih false c h1 with h2 | h2
        · exact Or.inl (List.mem_cons_of_mem d h2)
        · exact Or.inr h2

/-- In state `true` (previous character was whitespace) the scanner never
emits a leading whitespace character. -/
theorem collapseWsAux_true_head : ∀ (s : List Char) (c : Char),
    (collapseWsAux true s).head? = some c → pyWs c = false := by
  intro s
  induction s with
  | nil => intro c h; simp [collapseWsAux] at h
  | cons d t ih =>
    intro c h
    simp only [collapseWsAux] at h
    by_cases hd : pyWs d = true
    · rw [if_pos hd] at h
      exact ih c h
    · rw [if_neg hd] at h
      rw [List.head?_cons] at h
      injection h with h2
      subst h2
      simpa using hd

/-- `noDoubleWs` on a cons. -/
theorem noDW_cons (a : Char) (l : List Char) :
    noDoubleWs (a :: l) = true ↔
      ((∀ d, l.head? = some d → (pyWs a && pyWs d) = false) ∧ noDoubleWs l = true) := by
  cases l with
  | nil => simp [noDoubleWs]
  | cons b t =>
    show (!(pyWs a && pyWs b) && noDoubleWs (b :: t)) = true ↔ _
    constructor
    · intro h
      rw [Bool.and_eq_true, Bool.not_eq_true'] at h
      refine ⟨?_, h.2⟩
      intro d hd
      rw [List.head?_cons] at hd
      injection hd with hd2
      subst hd2
      exact h.1
    · intro h
      rw [Bool.and_eq_true, Bool.not_eq_true']
      exact ⟨h.1 b rfl, h.2⟩

/-- The collapse pass never emits two consecutive whitespace characters. -/
theorem collapseWsAux_noDW : ∀ (s : List Char) (b : Bool),
    noDoubleWs (collapseWsAux b s) = true := by
  intro s
  induction s with
  | nil => intro b; rfl
  | cons d t ih =>
    intro b
    have hstep : collapseWsAux b (d :: t) =
        (if pyWs d = true then
          (if b = true then collapseWsAux true t
           else ' ' :: collapseWsAux true t)
         else d :: collapseWsAux false t) := rfl
    rw [hstep]
    by_cases hd : pyWs d = true
    · rw [if_pos hd]
      cases b with
      | true => exact ih true
      | false =>
        show noDoubleWs (' ' :: collapseWsAux true t) = true
        rw [noDW_cons]
        refine ⟨?_, ih true⟩
        intro e he
        rw [collapseWsAux_true_head t e he]
        simp
    · rw [if_neg hd]
      rw [noDW_cons]
      refine ⟨?_, ih false⟩
      intro e he
      rw [Bool.not_eq_true] at hd
      rw [hd]
      simp

/-- A non-empty input whose last character is not whitespace keeps the
collapse output non-empty. -/
theorem collapseWsAux_ne_nil_of_last (s : List Char) (b : Bool) (x : Char)
    (hx : s.getLast? = some x) (hxw : pyWs x = false) :
    collapseWsAux b s ≠ [] := by
  intro h0
  have hall := collapseWsAux_eq_nil s b h0
  have hmem : x ∈ s := List.mem_of_getLast?_eq_some hx
  have h1 := hall x hmem
  rw [hxw] at h1
  exact absurd h1 (by simp)

/-- The last character of the collapse output fails `pyWs` whenever the
last input character does. -/
theorem collapseWsAux_last_not : ∀ (s : List Char) (b : Bool) (c : Char),
    (∀ d, s.getLast? = some d → pyWs d = false) →
    (collapseWsAux b s).getLast? = some c → pyWs c = false := by
  intro s
  induction s with
  | nil => intro b c _ h; simp [collapseWsAux] at h
  | cons d t ih =>
    intro b c hlast h
    cases t with
    | nil =>
      have hd : pyWs d = false := hlast d rfl
      have hred : collapseWsAux b [d] = [d] := by
        simp only [collapseWsAux]
        rw [if_neg (by simp [hd])]
      rw [hred] at h
      rw [show ([d] : List Char).getLast? = some d from rfl] at h
      injection h with h2
      subst h2
      exact hd
    | cons e t' =>
      have hlast' : ∀ x, (e :: t').getLast? = some x → pyWs x = false := by
        intro x hx
        apply hlast
        rw [List.getLast?_cons_cons]
        exact hx
      have hLex : ∃ x, (e :: t').getLast? = some x := by
        cases hgl : (e :: t').getLast? with
        | none => rw [List.getLast?_eq_none_iff] at hgl; simp at hgl
        | some x => exact ⟨x, rfl⟩
      obtain ⟨x, hx⟩ := hLex
      have hxw := hlast' x hx
      have hne1 : collapseWsAux true (e :: t') ≠ [] :=
        collapseWsAux_ne_nil_of_last _ true x hx hxw
      have hne2 : collapseWsAux false (e :: t') ≠ [] :=
        collapseWsAux_ne_nil_of_last _ false x hx hxw
      have hstep : collapseWsAux b (d :: e :: t') =
          (if pyWs d = true then
            (if b = true then collapseWsAux true (e :: t')
             else ' ' :: collapseWsAux true (e :: t'))
           else d :: collapseWsAux false (e :: t')) := rfl
      rw [hstep] at h
      by_cases hd : pyWs d = true
      · rw [if_pos hd] at h
        cases b with
        | true => exact ih true c hlast' h
        | false =>
          rw [if_neg (by simp)] at h
          cases hX : collapseWsAux true (e :: t') with
          | nil => exact absurd hX hne1
          | cons y ys =>
            rw [hX] at h
            rw [List.getLast?_cons_cons] at h
            rw [← hX] at h
            exact ih true c hlast' h
      · rw [if_neg hd] at h
        cases hX : collapseWsAux false (e :: t') with
        | nil => exact absurd hX hne2
        | cons y ys =>
          rw [hX] at h
          rw [List.getLast?_cons_cons] at h
          rw [← hX] at h
          exact ih false c hlast' h

/-- `collapseWsAux` ignores its incoming state when the next character is
not whitespace. -/
theorem collapseWsAux_state (y : List Char)
    (h : ∀ d, y.head? = some d → pyWs d = false) :
    collapseWsAux true y = collapseWsAux false y := by
  cases y with
  | nil => rfl
  | cons d t =>
    have hd := h d rfl
    have h1 : collapseWsAux true (d :: t) =
        (if pyWs d = true then collapseWsAux true t
         else d :: collapseWsAux false t) := rfl
    have h2 : collapseWsAux false (d :: t) =
        (if pyWs d = true then ' ' :: collapseWsAux true t
         else d :: collapseWsAux false t) := rfl
    rw [h1, h2]
    simp [hd]

/-- `collapseWsAux` distributes over an append whose left part ends in a
non-whitespace character. -/
theorem collapseWsAux_append : ∀ (x : List Char), x ≠ [] →
    (∀ c, x.getLast? = some c → pyWs c = false) →
    ∀ (b : Bool) (y : List Char),
      collapseWsAux b (x ++ y) = collapseWsAux b x ++ collapseWsAux false y := by
  intro x
  induction x with
  | nil => intro h; exact absurd rfl h
  | cons d t ih =>
    intro _ hlast b y
    cases t with
    | nil =>
      have hd : pyWs d = false := hlast d rfl
      have h1 : collapseWsAux b (d :: y) =
          (if pyWs d = true then
            (if b = true then collapseWsAux true y else ' ' :: collapseWsAux true y)
           else d :: collapseWsAux false y) := rfl
      have h2 : collapseWsAux b [d] =
          (if pyWs d = true then
            (if b = true then collapseWsAux true [] else ' ' :: collapseWsAux true [])
           else d :: collapseWsAux false []) := rfl
      show collapseWsAux b (d :: y) = collapseWsAux b [d] ++ collapseWsAux false y
      rw [h1, h2]
      simp [hd, collapseWsAux]
    | cons e t' =>
      have hlast' : ∀ c, (e :: t').getLast? = some c → pyWs c = false := by
        intro c hc
        apply hlast
        rw [List.getLast?_cons_cons]
        exact hc
      have hrec := ih (by simp) hlast'
      have h1 : collapseWsAux b ((d :: e :: t') ++ y) =
          (if pyWs d = true then
            (if b = true then collapseWsAux true ((e :: t') ++ y)
             else ' ' :: collapseWsAux true ((e :: t') ++ y))
           else d :: collapseWsAux false ((e :: t') ++ y)) := rfl
      have h2 : collapseWsAux b (d :: e :: t') =
          (if pyWs d = true then
            (if b = true then collapseWsAux true (e :: t')
             else ' ' :: collapseWsAux true (e :: t'))
           else d :: collapseWsAux false (e :: t')) := rfl
      rw [h1, h2]
      by_cases hd : pyWs d = true
      · rw [if_pos hd, if_pos hd]
        cases b with
        | true =>
          rw [hrec true y]
          rfl
        | false =>
          rw [hrec true y]
          rfl
      · rw [if_neg hd, if_neg hd]
        rw [hrec false y]
        rfl

/-- The head of an intercalation of non-empty lists is the head of its
first list. -/
theorem intercalate_head : ∀ (k2 : List Char) (rest : List (List Char)), k2 ≠ [] →
    (List.intercalate ([',', ' '] : List Char) (k2 :: rest)).head? = k2.head? := by
  intro k2 rest h
  cases rest with
  | nil => rw [intercalate_singleton]
  | cons k3 rest' =>
    rw [intercalate_cons2]
    cases k2 with
    | nil => exact absurd rfl h
    | cons c cs => rfl

/-- The collapse pass distributes over a `", "`-intercalation of
non-empty segments that end in non-whitespace. -/
theorem collapseWs_intercalate : ∀ (ks : List (List Char)),
    (∀ k ∈ ks, k ≠ [] ∧ (∀ c, k.head? = some c → pyWs c = false) ∧
      (∀ c, k.getLast? = some c → pyWs c = false)) →
    collapseWs (List.intercalate [',', ' '] ks) =
      List.intercalate [',', ' '] (ks.map collapseWs) := by
  intro ks
  induction ks with
  | nil => intro _; rfl
  | cons k rest ih =>
    intro h
    have hk := h k (List.mem_cons_self k rest)
    cases rest with
    | nil =>
      rw [intercalate_singleton, List.map_singleton, intercalate_singleton]
    | cons k2 rest' =>
      have hrest : ∀ x ∈ k2 :: rest', x ≠ [] ∧ (∀ c, x.head? = some c → pyWs c = false) ∧
          (∀ c, x.getLast? = some c → pyWs c = false) :=
        fun x hx => h x (List.mem_cons_of_mem k hx)
      have hk2 := hrest k2 (List.mem_cons_self k2 rest')
      rw [intercalate_cons2]
      have hassoc : k ++ [',', ' '] ++ List.intercalate [',', ' '] (k2 :: rest') =
          (k ++ [',']) ++ (' ' :: List.intercalate [',', ' '] (k2 :: rest')) := by
        simp
      rw [hassoc]
      show collapseWsAux false _ = _
      rw [collapseWsAux_append (k ++ [','])
        (by simp)
        (by intro c hc; rw [List.getLast?_concat] at hc; injection hc with hc2; subst hc2; decide)
        false (' ' :: List.intercalate [',', ' '] (k2 :: rest'))]
      rw [collapseWsAux_append k hk.1 hk.2.2 false [',']]
      have hsp : collapseWsAux false (' ' :: List.intercalate [',', ' '] (k2 :: rest')) =
          ' ' :: collapseWsAux true (List.intercalate [',', ' '] (k2 :: rest')) := rfl
      rw [hsp]
      rw [collapseWsAux_state (List.intercalate [',', ' '] (k2 :: rest'))
        (by
          intro d hd
          rw [intercalate_head k2 rest' hk2.1] at hd
          exact hk2.2.1 d hd)]
      have hIH := ih hrest
      show (collapseWsAux false k ++ collapseWsAux false [',']) ++
          ' ' :: collapseWsAux false (List.intercalate [',', ' '] (k2 :: rest')) = _
      rw [show collapseWsAux false ([','] : List Char) = [','] from rfl]
      rw [show collapseWsAux false (List.intercalate [',', ' '] (k2 :: rest')) =
        collapseWs (List.intercalate [',', ' '] (k2 :: rest')) from rfl]
      rw [hIH]
      show collapseWs k ++ [','] ++ ' ' :: List.intercalate [',', ' '] (List.map collapseWs (k2 :: rest')) = _
      simp [List.map_cons, intercalate_cons2, List.append_assoc]

/-- On comma-free text the comma normalizer flushes its pending
whitespace and changes nothing. -/
theorem normCommasAux_nc : ∀ (x pend : List Char), ',' ∉ x →
    normCommasAux false pend x = pend.reverse ++ x := by
  intro x
  induction x with
  | nil =>
    intro pend _
    show (if false = true then [] else pend.reverse) = pend.reverse ++ []
    simp
  | cons c cs ih =>
    intro pend h
    have hc : c ≠ ',' := fun h0 => h (h0 ▸ List.mem_cons_self c cs)
    have hcs : ',' ∉ cs := fun h0 => h (List.mem_cons_of_mem c h0)
    have hstep : normCommasAux false pend (c :: cs) =
        (if pyWs c = true then normCommasAux false (c :: pend) cs
         else if c = ',' then ',' :: ' ' :: normCommasAux true [] cs
         else pend.reverse ++ c :: normCommasAux false [] cs) := rfl
    rw [hstep]
    by_cases hw : pyWs c = true
    · rw [if_pos hw, ih (c :: pend) hcs]
      simp
    · rw [if_neg hw, if_neg hc, ih [] hcs]
      simp

/-- In dropping state with nothing pending, a non-whitespace next
character makes the dropping and plain states agree. -/
theorem normCommasAux_state (y : List Char)
    (h : ∀ d, y.head? = some d → pyWs d = false) :
    normCommasAux true [] y = normCommasAux false [] y := by
  cases y with
  | nil => rfl
  | cons d t =>
    have hd := h d rfl
    have h1 : normCommasAux true [] (d :: t) =
        (if pyWs d = true then normCommasAux true [] t
         else if d = ',' then ',' :: ' ' :: normCommasAux true [] t
         else d :: normCommasAux false [] t) := rfl
    have h2 : normCommasAux false [] (d :: t) =
        (if pyWs d = true then normCommasAux false [d] t
         else if d = ',' then ',' :: ' ' :: normCommasAux true [] t
         else d :: normCommasAux false [] t) := rfl
    rw [h1, h2]
    simp [hd]

/-- Scanning a non-empty comma-free span ending in non-whitespace,
followed by a comma-space separator and text with a non-whitespace head,
the comma normalizer passes everything through unchanged. -/
theorem normCommasAux_seg : ∀ (x : List Char), x ≠ [] → ',' ∉ x →
    (∀ c, x.getLast? = some c → pyWs c = false) →
    ∀ (pend y : List Char), (∀ d, y.head? = some d → pyWs d = false) →
    normCommasAux false pend (x ++ ',' :: ' ' :: y) =
      pend.reverse ++ x ++ ',' :: ' ' :: normCommasAux false [] y := by
  intro x
  induction x with
  | nil => intro h; exact absurd rfl h
  | cons c t ih =>
    intro _ hnc hlast pend y hy
    have hc : c ≠ ',' := fun h0 => hnc (h0 ▸ List.mem_cons_self c t)
    cases t with
    | nil =>
      have hcw : pyWs c = false := hlast c rfl
      have h1 : normCommasAux false pend (c :: ',' :: ' ' :: y) =
          (if pyWs c = true then normCommasAux false (c :: pend) (',' :: ' ' :: y)
           else if c = ',' then ',' :: ' ' :: normCommasAux true [] (',' :: ' ' :: y)
           else pend.reverse ++ c :: normCommasAux false [] (',' :: ' ' :: y)) := rfl
      show normCommasAux false pend (c :: ',' :: ' ' :: y) = _
      rw [h1, if_neg (by simp [hcw]), if_neg hc]
      have h2 : normCommasAux false [] (',' :: ' ' :: y) =
          ',' :: ' ' :: normCommasAux true [] y := rfl
      rw [h2, normCommasAux_state y hy]
      simp
    | cons e t' =>
      have hlast' : ∀ d, (e :: t').getLast? = some d → pyWs d = false := by
        intro d hd
        apply hlast
        rw [List.getLast?_cons_cons]
        exact hd
      have hnc' : ',' ∉ (e :: t') := fun h0 => hnc (List.mem_cons_of_mem c h0)
      have hrec := ih (by simp) hnc' hlast'
      have h1 : normCommasAux false pend ((c :: e :: t') ++ ',' :: ' ' :: y) =
          (if pyWs c = true then
            normCommasAux false (c :: pend) ((e :: t') ++ ',' :: ' ' :: y)
           else if c = ',' then
            ',' :: ' ' :: normCommasAux true [] ((e :: t') ++ ',' :: ' ' :: y)
           else pend.reverse ++ c :: normCommasAux false [] ((e :: t') ++ ',' :: ' ' :: y)) := rfl
      rw [h1]
      by_cases hw : pyWs c = true
      · rw [if_pos hw, hrec (c :: pend) y hy]
        simp
      · rw [if_neg hw, if_neg hc, hrec [] y hy]
        simp

/-- The comma normalizer is the identity on a `", "`-intercalation of
non-empty, comma-free segments with non-whitespace endpoints. -/
theorem normCommas_intercalate : ∀ (ks : List (List Char)),
    (∀ k ∈ ks, k ≠ [] ∧ ',' ∉ k ∧ (∀ c, k.head? = some c → pyWs c = false) ∧
      (∀ c, k.getLast? = some c → pyWs c = false)) →
    normCommas (List.intercalate [',', ' '] ks) = List.intercalate [',', ' '] ks := by
  intro ks
  induction ks with
  | nil => intro _; rfl
  | cons k rest ih =>
    intro h
    have hk := h k (List.mem_cons_self k rest)
    cases rest with
    | nil =>
      rw [intercalate_singleton]
      show normCommasAux false [] k = k
      rw [normCommasAux_nc k [] hk.2.1]
      simp
    | cons k2 rest' =>
      have hrest : ∀ x ∈ k2 :: rest', x ≠ [] ∧ ',' ∉ x ∧
          (∀ c, x.head? = some c → pyWs c = false) ∧
          (∀ c, x.getLast? = some c → pyWs c = false) :=
        fun x hx => h x (List.mem_cons_of_mem k hx)
      have hk2 := hrest k2 (List.mem_cons_self k2 rest')
      have hhead : ∀ d, (List.intercalate [',', ' '] (k2 :: rest')).head? = some d →
          pyWs d = false := by
        intro d hd
        rw [intercalate_head k2 rest' hk2.1] at hd
        exact hk2.2.2.1 d hd
      rw [intercalate_cons2]
      have hassoc : k ++ [',', ' '] ++ List.intercalate [',', ' '] (k2 :: rest') =
          k ++ ',' :: ' ' :: List.intercalate [',', ' '] (k2 :: rest') := by
        simp
      rw [hassoc]
      show normCommasAux false [] _ = _
      rw [normCommasAux_seg k hk.1 hk.2.1 hk.2.2.2 []
        (List.intercalate [',', ' '] (k2 :: rest')) hhead]
      have hIH : normCommasAux false [] (List.intercalate [',', ' '] (k2 :: rest')) =
          List.intercalate [',', ' '] (k2 :: rest') := ih hrest
      rw [hIH]
      simp

/-- Pieces produced by the comma splitter contain no comma. -/
theorem splitComma_cons (c : Char) (cs : List Char) :
    splitComma (c :: cs) =
      (if c = ',' then [] :: splitComma cs
       else
        match splitComma cs with
        | [] => [[c]]
        | h :: t => (c :: h) :: t) := rfl

/-- No piece of `splitComma` contains a comma. -/
theorem splitComma_no_comma : ∀ (l : List Char) (q : List Char),
    q ∈ splitComma l → ',' ∉ q := by
  intro l
  induction l with
  | nil =>
    intro q hq
    rw [show splitComma [] = [[]] from rfl] at hq
    simp at hq
    subst hq
    simp
  | cons c cs ih =>
    intro q hq
    rw [splitComma_cons] at hq
    by_cases hc : c = ','
    · rw [if_pos hc] at hq
      rcases List.mem_cons.mp hq with h1 | h1
      · subst h1; simp
      · exact ih q h1
    · rw [if_neg hc] at hq
      cases hsp : splitComma cs with
      | nil =>
        rw [hsp] at hq
        simp at hq
        subst hq
        simp [hc]
        intro h0
        exact hc h0.symm
      | cons h t =>
        rw [hsp] at hq
        rcases List.mem_cons.mp hq with h1 | h1
        · subst h1
          intro hmem
          rcases List.mem_cons.mp hmem with h2 | h2
          · exact hc h2.symm
          · have := ih h (hsp ▸ List.mem_cons_self h t)
            exact this h2
        · have hmem : q ∈ splitComma cs := hsp ▸ List.mem_cons_of_mem h h1
          exact ih q hmem

/-- `stripEnds` only removes characters. -/
theorem stripEnds_subset (p : Char → Bool) (l : List Char) (c : Char)
    (h : c ∈ stripEnds p l) : c ∈ l := by
  rw [stripEnds_eq] at h
  have h1 : c ∈ l.dropWhile p :=
    (List.rdropWhile_prefix p (l.dropWhile p)).subset h
  exact (List.dropWhile_sublist p).subset h1

/-- The boundary substitution only removes characters. -/
theorem bSubAux_subset (P : List Char) : ∀ (s : List Char) (skip : Nat) (prevW : Bool) (c : Char),
    c ∈ bSubAux P skip prevW s → c ∈ s := by
  intro s
  induction s with
  | nil => intro skip prevW c h; simp [bSubAux] at h
  | cons d t ih =>
    intro skip prevW c h
    cases skip with
    | succ k =>
      have hstep : bSubAux P (k + 1) prevW (d :: t) = bSubAux P k (wordChar d) t := rfl
      rw [hstep] at h
      exact List.mem_cons_of_mem d (ih k (wordChar d) c h)
    | zero =>
      have hstep : bSubAux P 0 prevW (d :: t) =
          (if P = [] then d :: t
           else if lowerL ((d :: t).take P.length) = P ∧
               boundB prevW P ((d :: t).drop P.length) = true then
             bSubAux P (P.length - 1) (wordChar d) t
           else d :: bSubAux P 0 (wordChar d) t) := rfl
      rw [hstep] at h
      by_cases hP : P = []
      · rw [if_pos hP] at h
        exact h
      · rw [if_neg hP] at h
        by_cases hm : lowerL ((d :: t).take P.length) = P ∧
            boundB prevW P ((d :: t).drop P.length) = true
        · rw [if_pos hm] at h
          exact List.mem_cons_of_mem d (ih (P.length - 1) (wordChar d) c h)
        · rw [if_neg hm] at h
          rcases List.mem_cons.mp h with h1 | h1
          · subst h1
            exact List.mem_cons_self c t
          · exact List.mem_cons_of_mem d (ih 0 (wordChar d) c h1)

/-- A surviving segment of the member loop only has characters of the
original segment. -/
theorem segLoop_some_subset : ∀ (S : List (List Char)) (stale seg r : List Char),
    segLoop stale seg S = some r → ∀ c ∈ r, c ∈ seg := by
  intro S
  induction S with
  | nil =>
    intro stale seg r h c hc
    have h2 : seg = r := by
      injection h
    subst h2
    exact hc
  | cons m ms ih =>
    intro stale seg r h c hc
    have hstep : segLoop stale seg (m :: ms) =
        (if stale = lowerL m then none
         else if bSearch (lowerL m) stale then
           if stripWs (bSub (lowerL m) seg) = [] then none
           else segLoop stale (stripWs (bSub (lowerL m) seg)) ms
         else segLoop stale seg ms) := rfl
    rw [hstep] at h
    by_cases h1 : stale = lowerL m
    · rw [if_pos h1] at h
      exact absurd h (by simp)
    · rw [if_neg h1] at h
      by_cases h2 : bSearch (lowerL m) stale = true
      · rw [if_pos h2] at h
        by_cases h3 : stripWs (bSub (lowerL m) seg) = []
        · rw [if_pos h3] at h
          exact absurd h (by simp)
        · rw [if_neg h3] at h
          have h4 := ih stale (stripWs (bSub (lowerL m) seg)) r h c hc
          have h5 : c ∈ bSub (lowerL m) seg := stripEnds_subset pyWs _ c h4
          exact bSubAux_subset (lowerL m) seg 0 false c h5
      · rw [if_neg h2] at h
        exact ih stale seg r h c hc

/-- Kept segments are non-empty, stripped and comma-free, so their first
and last characters are neither whitespace nor commas. -/
theorem keptSegments_good (S : List (List Char)) (r1 : List Char) (k : List Char)
    (hk : k ∈ keptSegments S r1) :
    k ≠ [] ∧ ',' ∉ k ∧ (∀ c, k.head? = some c → pyWs c = false) ∧
      (∀ c, k.getLast? = some c → pyWs c = false) := by
  unfold keptSegments at hk
  rw [List.mem_filterMap] at hk
  obtain ⟨seg, hsegmem, hseg⟩ := hk
  rw [List.mem_map] at hsegmem
  obtain ⟨piece, hpiece, hps⟩ := hsegmem
  have hpnc : ',' ∉ piece := splitComma_no_comma r1 piece hpiece
  by_cases h0 : seg = []
  · rw [if_pos h0] at hseg
    exact absurd hseg (by simp)
  · rw [if_neg h0] at hseg
    cases hsl : segLoop (lowerL seg) seg S with
    | none =>
      simp only [hsl] at hseg
      exact absurd hseg (by simp)
    | some s =>
      simp only [hsl] at hseg
      by_cases h2 : stripWs s = []
      · rw [if_pos h2] at hseg
        exact absurd hseg (by simp)
      · rw [if_neg h2] at hseg
        simp only [Option.some.injEq] at hseg
        subst hseg
        have hknc : ',' ∉ stripWs s := by
          intro hcm
          have h3 : ',' ∈ s := stripEnds_subset pyWs s ',' hcm
          have h4 : ',' ∈ seg := segLoop_some_subset S (lowerL seg) seg s hsl ',' h3
          rw [← hps] at h4
          exact hpnc (stripEnds_subset pyWs piece ',' h4)
        refine ⟨h2, hknc, ?_, ?_⟩
        · intro c hc
          exact stripEnds_head_not pyWs s c hc
        · intro c hc
          exact stripEnds_last_not pyWs s c hc

/-- `noCommaComma` ignores a leading non-comma character. -/
theorem noCommaComma_cons_ne (c : Char) (rest : List Char) (h : c ≠ ',') :
    noCommaComma (c :: rest) = noCommaComma rest := by
  have hstep : noCommaComma (c :: rest) =
      (if c = ',' then
        (if (rest.dropWhile pyWs).head? = some ',' then false else true) &&
          noCommaComma rest
       else noCommaComma rest) := rfl
  rw [hstep, if_neg h]

/-- `noCommaComma` ignores a comma-free prefix. -/
theorem noCommaComma_append_nc : ∀ (x y : List Char), ',' ∉ x →
    noCommaComma (x ++ y) = noCommaComma y := by
  intro x
  induction x with
  | nil => intro y _; rfl
  | cons c t ih =>
    intro y h
    have hc : c ≠ ',' := fun h0 => h (h0 ▸ List.mem_cons_self c t)
    have ht : ',' ∉ t := fun h0 => h (List.mem_cons_of_mem c h0)
    show noCommaComma (c :: (t ++ y)) = noCommaComma y
    rw [noCommaComma_cons_ne c (t ++ y) hc, ih y ht]

/-- A comma-free list satisfies `noCommaComma`. -/
theorem noCommaComma_nc (x : List Char) (h : ',' ∉ x) :
    noCommaComma x = true := by
  have h1 := noCommaComma_append_nc x [] h
  rw [List.append_nil] at h1
  rw [h1]
  rfl

/-- An intercalation starting with a non-empty list starts with that
list's head. -/
theorem intercalate_cons_head (e : Char) (u : List Char) (rest : List (List Char)) :
    ∃ w, List.intercalate ([',', ' '] : List Char) ((e :: u) :: rest) = e :: w := by
  cases rest with
  | nil =>
    rw [intercalate_singleton]
    exact ⟨u, rfl⟩
  | cons k2 rest' =>
    rw [intercalate_cons2]
    exact ⟨u ++ [',', ' '] ++ List.intercalate [',', ' '] (k2 :: rest'), by simp⟩

/-- A `", "`-intercalation of non-empty, comma-free segments with
non-whitespace heads has no comma followed (through whitespace) by a
comma. -/
theorem noCommaComma_intercalate : ∀ (ks : List (List Char)),
    (∀ k ∈ ks, k ≠ [] ∧ ',' ∉ k ∧ (∀ c, k.head? = some c → pyWs c = false)) →
    noCommaComma (List.intercalate [',', ' '] ks) = true := by
  intro ks
  induction ks with
  | nil => intro _; rfl
  | cons k rest ih =>
    intro h
    have hk := h k (List.mem_cons_self k rest)
    cases rest with
    | nil =>
      rw [intercalate_singleton]
      exact noCommaComma_nc k hk.2.1
    | cons k2 rest' =>
      have hrest : ∀ x ∈ k2 :: rest', x ≠ [] ∧ ',' ∉ x ∧
          (∀ c, x.head? = some c → pyWs c = false) :=
        fun x hx => h x (List.mem_cons_of_mem k hx)
      have hk2 := hrest k2 (List.mem_cons_self k2 rest')
      have hI := ih hrest
      have hne : ∃ e u, k2 = e :: u := by
        cases k2 with
        | nil => exact absurd rfl hk2.1
        | cons e u => exact ⟨e, u, rfl⟩
      obtain ⟨e, u, hk2c⟩ := hne
      have hew : pyWs e = false := hk2.2.2 e (by rw [hk2c]; rfl)
      have hec : e ≠ ',' := by
        intro h0
        apply hk2.2.1
        rw [hk2c, h0]
        exact List.mem_cons_self ',' u
      obtain ⟨w, hw⟩ := intercalate_cons_head e u rest'
      rw [← hk2c] at hw
      rw [intercalate_cons2]
      have hassoc : k ++ [',', ' '] ++ List.intercalate [',', ' '] (k2 :: rest') =
          k ++ (',' :: ' ' :: List.intercalate [',', ' '] (k2 :: rest')) := by
        simp
      rw [hassoc]
      rw [noCommaComma_append_nc k _ hk.2.1]
      have hstep : noCommaComma (',' :: ' ' :: List.intercalate [',', ' '] (k2 :: rest')) =
          ((if ((' ' :: List.intercalate [',', ' '] (k2 :: rest')).dropWhile pyWs).head? =
              some ',' then false else true) &&
            noCommaComma (' ' :: List.intercalate [',', ' '] (k2 :: rest'))) := rfl
      rw [hstep]
      rw [noCommaComma_cons_ne ' ' _ (by decide)]
      rw [hI]
      rw [hw]
      rw [List.dropWhile_cons_of_pos (by decide : pyWs ' ' = true)]
      rw [List.dropWhile_cons_of_neg (by simp [hew])]
      rw [List.head?_cons]
      rw [if_neg (by simp [hec])]
      rfl

/-- An intercalation of lists headed by a non-empty list is non-empty. -/
theorem intercalate_ne_nil (k : List Char) (rest : List (List Char)) (hk : k ≠ []) :
    List.intercalate ([',', ' '] : List Char) (k :: rest) ≠ [] := by
  cases rest with
  | nil =>
    rw [intercalate_singleton]
    exact hk
  | cons k2 r =>
    rw [intercalate_cons2]
    intro h0
    rw [List.append_eq_nil] at h0
    rw [List.append_eq_nil] at h0
    exact absurd h0.1.2 (by simp)

/-- The last character of an intercalation of non-empty lists is the
last character of one of them. -/
theorem intercalate_last_mem : ∀ (ks : List (List Char)),
    (∀ k ∈ ks, k ≠ []) →
    ∀ c, (List.intercalate ([',', ' '] : List Char) ks).getLast? = some c →
      ∃ k ∈ ks, k.getLast? = some c := by
  intro ks
  induction ks with
  | nil =>
    intro _ c h
    simp [List.intercalate] at h
  | cons k rest ih =>
    intro h c hc
    cases rest with
    | nil =>
      rw [intercalate_singleton] at hc
      exact ⟨k, List.mem_cons_self k [], hc⟩
    | cons k2 r =>
      have hrest : ∀ x ∈ k2 :: r, x ≠ [] := fun x hx => h x (List.mem_cons_of_mem k hx)
      have hI : List.intercalate ([',', ' '] : List Char) (k2 :: r) ≠ [] :=
        intercalate_ne_nil k2 r (hrest k2 (List.mem_cons_self k2 r))
      rw [intercalate_cons2] at hc
      cases hIL : (List.intercalate ([',', ' '] : List Char) (k2 :: r)).getLast? with
      | none =>
        rw [List.getLast?_eq_none_iff] at hIL
        exact absurd hIL hI
      | some x =>
        rw [List.getLast?_append, hIL] at hc
        simp only [Option.or_some] at hc
        injection hc with hc2
        subst hc2
        obtain ⟨k3, hk3, hk3l⟩ := ih hrest x hIL
        exact ⟨k3, List.mem_cons_of_mem k hk3, hk3l⟩

/-- The head of a collapse of a list with non-whitespace head is that
same head. -/
theorem collapseWs_head_eq (c : Char) (cs : List Char) (h : pyWs c = false) :
    collapseWs (c :: cs) = c :: collapseWsAux false cs := by
  show collapseWsAux false (c :: cs) = _
  have hstep : collapseWsAux false (c :: cs) =
      (if pyWs c = true then ' ' :: collapseWsAux true cs
       else c :: collapseWsAux false cs) := rfl
  rw [hstep, if_neg (by simp [h])]

/-- The collapsed kept segments inherit all the goodness properties. -/
theorem collapsed_good (S : List (List Char)) (r1 : List Char) (x : List Char)
    (hx : x ∈ (keptSegments S r1).map collapseWs) :
    x ≠ [] ∧ ',' ∉ x ∧ (∀ c, x.head? = some c → pyWs c = false) ∧
      (∀ c, x.getLast? = some c → pyWs c = false) := by
  rw [List.mem_map] at hx
  obtain ⟨k, hk, hkx⟩ := hx
  have hg := keptSegments_good S r1 k hk
  have hne : ∃ e u, k = e :: u := by
    cases k with
    | nil => exact absurd rfl hg.1
    | cons e u => exact ⟨e, u, rfl⟩
  obtain ⟨e, u, hk2c⟩ := hne
  have hew : pyWs e = false := hg.2.2.1 e (by rw [hk2c]; rfl)
  subst hkx
  refine ⟨?_, ?_, ?_, ?_⟩
  · rw [hk2c]
    exact collapseWs_ne_nil e u
  · intro hcm
    rcases collapseWsAux_mem k false ',' hcm with h1 | h1
    · exact hg.2.1 h1
    · exact absurd h1 (by decide)
  · intro c hc
    rw [hk2c, collapseWs_head_eq e u hew, List.head?_cons] at hc
    injection hc with hc2
    subst hc2
    exact hew
  · intro c hc
    exact collapseWsAux_last_not k false c hg.2.2.2 hc

/-- The final normalization characterized: with the preceding cleanup
passes being the identity on the already-normalized rejoined segments,
the segment phase is exactly the collapsed kept segments rejoined by
`", "`. -/
theorem segPhase_eq (S : List (List Char)) (r1 : List Char) :
    segPhase S r1 =
      List.intercalate [',', ' '] ((keptSegments S r1).map collapseWs) := by
  have hgood := fun k hk => keptSegments_good S r1 k hk
  have hdist : collapseWs (List.intercalate [',', ' '] (keptSegments S r1)) =
      List.intercalate [',', ' '] ((keptSegments S r1).map collapseWs) :=
    collapseWs_intercalate (keptSegments S r1)
      (fun k hk => ⟨(hgood k hk).1, (hgood k hk).2.2.1, (hgood k hk).2.2.2⟩)
  have hgood' := fun x hx => collapsed_good S r1 x hx
  have hid : normCommas (List.intercalate [',', ' '] ((keptSegments S r1).map collapseWs)) =
      List.intercalate [',', ' '] ((keptSegments S r1).map collapseWs) :=
    normCommas_intercalate ((keptSegments S r1).map collapseWs)
      (fun x hx => ⟨(hgood' x hx).1, (hgood' x hx).2.1, (hgood' x hx).2.2.1,
        (hgood' x hx).2.2.2⟩)
  have hVhead : ∀ c,
      (List.intercalate ([',', ' '] : List Char) ((keptSegments S r1).map collapseWs)).head? =
        some c → pyWs c = false ∧ c ≠ ',' := by
    intro c hc
    cases hks : (keptSegments S r1).map collapseWs with
    | nil =>
      rw [hks] at hc
      simp [List.intercalate] at hc
    | cons x rest =>
      rw [hks] at hc
      have hx := hgood' x (hks ▸ List.mem_cons_self x rest)
      rw [intercalate_head x rest hx.1] at hc
      refine ⟨hx.2.2.1 c hc, ?_⟩
      intro h0
      subst h0
      have hm : ',' ∈ x := by
        cases hxc : x with
        | nil => rw [hxc] at hc; simp at hc
        | cons y ys =>
          rw [hxc] at hc
          rw [List.head?_cons] at hc
          injection hc with hc2
          rw [← hc2]
          exact List.mem_cons_self y ys
      exact hx.2.1 hm
  have hVlast : ∀ c,
      (List.intercalate ([',', ' '] : List Char) ((keptSegments S r1).map collapseWs)).getLast? =
        some c → pyWs c = false ∧ c ≠ ',' := by
    intro c hc
    obtain ⟨x, hx, hxl⟩ := intercalate_last_mem ((keptSegments S r1).map collapseWs)
      (fun x hx => (hgood' x hx).1) c hc
    have hg := hgood' x hx
    refine ⟨hg.2.2.2 c hxl, ?_⟩
    intro h0
    subst h0
    exact hg.2.1 (List.mem_of_getLast?_eq_some hxl)
  have hstrip1 : stripWs (List.intercalate [',', ' '] ((keptSegments S r1).map collapseWs)) =
      List.intercalate [',', ' '] ((keptSegments S r1).map collapseWs) :=
    stripEnds_noop pyWs _ (fun c hc => (hVhead c hc).1) (fun c hc => (hVlast c hc).1)
  have hstrip2 :
      stripCommas (List.intercalate [',', ' '] ((keptSegments S r1).map collapseWs)) =
      List.intercalate [',', ' '] ((keptSegments S r1).map collapseWs) :=
    stripEnds_noop (fun c => c = ',') _
      (fun c hc => by simp [(hVhead c hc).2])
      (fun c hc => by simp [(hVlast c hc).2])
  show stripWs (stripCommas (stripWs (normCommas (collapseWs
    (List.intercalate [',', ' '] (keptSegments S r1)))))) = _
  rw [hdist, hid, hstrip1, hstrip2, hstrip1]

/-- The four punctuation invariants of the segment phase output. -/
theorem segPhase_inv (S : List (List Char)) (r1 : List Char) :
    noDoubleWs (segPhase S r1) = true ∧
    noCommaComma (segPhase S r1) = true ∧
    (∀ c, (segPhase S r1).head? = some c → pyWs c = false ∧ c ≠ ',') ∧
    (∀ c, (segPhase S r1).getLast? = some c → pyWs c = false ∧ c ≠ ',') := by
  have hgood' := fun x hx => collapsed_good S r1 x hx
  have hdist : collapseWs (List.intercalate [',', ' '] (keptSegments S r1)) =
      List.intercalate [',', ' '] ((keptSegments S r1).map collapseWs) :=
    collapseWs_intercalate (keptSegments S r1)
      (fun k hk => ⟨(keptSegments_good S r1 k hk).1, (keptSegments_good S r1 k hk).2.2.1,
        (keptSegments_good S r1 k hk).2.2.2⟩)
  rw [segPhase_eq]
  refine ⟨?_, ?_, ?_, ?_⟩
  · rw [← hdist]
    exact collapseWsAux_noDW (List.intercalate [',', ' '] (keptSegments S r1)) false
  · exact noCommaComma_intercalate ((keptSegments S r1).map collapseWs)
      (fun x hx => ⟨(hgood' x hx).1, (hgood' x hx).2.1, (hgood' x hx).2.2.1⟩)
  · intro c hc
    cases hks : (keptSegments S r1).map collapseWs with
    | nil =>
      rw [hks] at hc
      simp [List.intercalate] at hc
    | cons x rest =>
      rw [hks] at hc
      have hx := hgood' x (hks ▸ List.mem_cons_self x rest)
      rw [intercalate_head x rest hx.1] at hc
      refine ⟨hx.2.2.1 c hc, ?_⟩
      intro h0
      subst h0
      have hm : ',' ∈ x := by
        cases hxc : x with
        | nil => rw [hxc] at hc; simp at hc
        | cons y ys =>
          rw [hxc] at hc
          rw [List.head?_cons] at hc
          injection hc with hc2
          rw [← hc2]
          exact List.mem_cons_self y ys
      exact hx.2.1 hm
  · intro c hc
    obtain ⟨x, hx, hxl⟩ := intercalate_last_mem ((keptSegments S r1).map collapseWs)
      (fun x hx => (hgood' x hx).1) c hc
    have hg := hgood' x hx
    refine ⟨hg.2.2.2 c hxl, ?_⟩
    intro h0
    subst h0
    exact hg.2.1 (List.mem_of_getLast?_eq_some hxl)

/-- The punctuation invariants lifted to the full entry point, for
exclusion texts whose parsed set is non-empty (so the cleanup pipeline
actually runs). -/
theorem process_inv (p e : String) (h : parse_exclusion_words e.data ≠ []) :
    noDoubleWs (process_prompt_with_exclusions p e).data = true ∧
    noCommaComma (process_prompt_with_exclusions p e).data = true ∧
    (process_prompt_with_exclusions p e).data.head? ≠ some ',' ∧
    (process_prompt_with_exclusions p e).data.getLast? ≠ some ',' := by
  have he : e.data ≠ [] := by
    intro h0
    apply h
    rw [h0]
    rfl
  have hred : (process_prompt_with_exclusions p e).data = processL p.data e.data := rfl
  rw [hred]
  unfold processL
  rw [if_neg he]
  unfold clean_prompt_with_exclusions
  by_cases hp : p.data = []
  · rw [if_pos (Or.inl hp), hp]
    refine ⟨rfl, rfl, by simp, by simp⟩
  · rw [if_neg (show ¬(p.data = [] ∨ parse_exclusion_words e.data = []) from
      fun hor => hor.elim hp h)]
    have hinv := segPhase_inv (parse_exclusion_words e.data)
      (bracketSub (parse_exclusion_words e.data) p.data)
    refine ⟨hinv.1, hinv.2.1, ?_, ?_⟩
    · intro hcon
      exact (hinv.2.2.1 ',' hcon).2 rfl
    · intro hcon
      exact (hinv.2.2.2 ',' hcon).2 rfl

/-- C3 amended: whenever the parsed exclusion set is non-empty — so the
cleanup pipeline actually runs instead of the verbatim fast path — the
output has no whitespace run of length two or more, no comma followed
(through whitespace) by another comma, no leading comma and no trailing
comma. -/
theorem c3_punctuation_invariants (p e : String)
    (h : parse_exclusion_words e.data ≠ []) :
    noDoubleWs (process_prompt_with_exclusions p e).data = true ∧
    noCommaComma (process_prompt_with_exclusions p e).data = true ∧
    (process_prompt_with_exclusions p e).data.head? ≠ some ',' ∧
    (process_prompt_with_exclusions p e).data.getLast? ≠ some ',' :=
  process_inv p e h

/-- Witness for C3 (amended): a messy concrete prompt cleaned with a
non-matching, non-empty exclusion set satisfies all four invariants. -/
theorem c3_witness :
    noDoubleWs (process_prompt_with_exclusions ",a,,b  c ,," "zz").data = true ∧
    noCommaComma (process_prompt_with_exclusions ",a,,b  c ,," "zz").data = true ∧
    (process_prompt_with_exclusions ",a,,b  c ,," "zz").data.head? ≠ some ',' ∧
    (process_prompt_with_exclusions ",a,,b  c ,," "zz").data.getLast? ≠ some ',' :=
  c3_punctuation_invariants ",a,,b  c ,," "zz" (by decide)

/-- C6 amended: within a segment each member is matched
case-insensitively with word-boundary semantics, whose word characters
are the alphanumerics and the underscore (so `"dog"` does not match
inside `"dog_x"`); each match is deleted — not replaced by a space — and
the later whitespace collapse guarantees no double space survives in the
output; the spec example holds. -/
theorem c6_word_boundary_amended :
    (∀ p e : String, parse_exclusion_words e.data ≠ [] →
      noDoubleWs (process_prompt_with_exclusions p e).data = true) ∧
    process_prompt_with_exclusions "a red dog running" "dog" = "a red running" ∧
    process_prompt_with_exclusions "dog_x" "dog" = "dog_x" := by
  refine ⟨?_, by decide, by decide⟩
  intro p e h
  exact (process_inv p e h).1

/-- Witness for C6 (amended): the no-double-space invariant evaluated on
a concrete double-spaced prompt. -/
theorem c6_witness :
    noDoubleWs (process_prompt_with_exclusions "x  y   z" "zz").data = true :=
  c6_word_boundary_amended.1 "x  y   z" "zz" (by decide)

end PromptProc
